import Mathlib

/-!
Shallow embedding of the newsletter digest pipeline
(`src/main.py`, `src/summarize.py`, `src/fetch.py`, `data/src/filter.py`)
and proofs about its specified properties.

Strings are modelled as `List Char` (Python `str` values over the
character repertoire the pipeline manipulates; case mapping is the ASCII
one, which covers every case-insensitive comparison the code performs on
its literal patterns).  External library calls (BeautifulSoup's
`get_text`, `bleach.clean`, `email.utils.parseaddr`, the JSON codec) are
modelled explicitly where a claim depends on them; each model carries a
doc comment describing its scope.

Scanning functions that consume more than one character per step are
written with an explicit fuel argument (initialised to the input length,
which every step respects), so that all definitions are structurally
recursive and evaluate inside the kernel.
-/

/-- Apostrophe character, used inside literal pattern strings. -/
def apos : Char := Char.ofNat 39

/-- Python `str` whitespace test (`\s` of `re`), restricted to the ASCII
range: space, tab, newline, carriage return, vertical tab, form feed.
Python's `str.strip()` also strips further Unicode whitespace (e.g.
`\xa0`); every theorem that depends on strip-fixedness therefore
restricts its strings to printable ASCII, where the two notions
coincide. -/
def pySpace (c : Char) : Bool :=
  c = ' ' || c = '\t' || c = '\n' || c = '\r' || c = Char.ofNat 11 || c = Char.ofNat 12

/-- Python `str.strip()`: drop leading and trailing whitespace. -/
def pyStrip (l : List Char) : List Char :=
  ((l.dropWhile pySpace).reverse.dropWhile pySpace).reverse

/-- Python `str.lower()` (ASCII case mapping). -/
def lowerL (l : List Char) : List Char := l.map Char.toLower

/-- Case-insensitive character comparison used by `re.IGNORECASE`,
with the ASCII case mapping.  Python folds non-ASCII letters as well
(e.g. `Í` to `í`); the literal patterns of the sources are lower-case, and
every theorem that depends on a *non*-match of a pattern restricts its
strings to printable ASCII, where the two foldings agree. -/
def ciChar (a b : Char) : Bool := a.toLower = b.toLower

/-- Case-sensitive character comparison. -/
def csChar (a b : Char) : Bool := a = b

/-- Does the list start with the pattern, character-compared by `eqc`? -/
def startsWithBy (eqc : Char → Char → Bool) : List Char → List Char → Bool
  | [], _ => true
  | _ :: _, [] => false
  | p :: ps, c :: cs => eqc p c && startsWithBy eqc ps cs

/-- Does the literal pattern occur anywhere in the list (compared by
`eqc`)?  This is `re.search` of a literal pattern, as a Boolean. -/
def containsBy (eqc : Char → Char → Bool) (pat : List Char) : List Char → Bool
  | [] => startsWithBy eqc pat []
  | c :: cs => startsWithBy eqc pat (c :: cs) || containsBy eqc pat cs

/-- Fueled body of `subAll`. -/
def subAllF (eqc : Char → Char → Bool) (pat rep : List Char) : Nat → List Char → List Char
  | _, [] => []
  | 0, l => l
  | fuel + 1, c :: cs =>
    if pat ≠ [] ∧ startsWithBy eqc pat (c :: cs) = true then
      rep ++ subAllF eqc pat rep fuel ((c :: cs).drop pat.length)
    else
      c :: subAllF eqc pat rep fuel cs

/-- One pass of Python `re.sub` with a literal pattern: scan left to
right, replace non-overlapping occurrences, never rescan a replacement.
An empty pattern is treated as a no-op (every pattern in the sources is
nonempty). -/
def subAll (eqc : Char → Char → Bool) (pat rep l : List Char) : List Char :=
  subAllF eqc pat rep l.length l

theorem startsWithBy_nil (eqc : Char → Char → Bool) (p : Char) (ps : List Char) :
    startsWithBy eqc (p :: ps) [] = false := rfl

theorem subAllF_of_not_contains (eqc : Char → Char → Bool) (pat rep : List Char)
    (fuel : Nat) (l : List Char) (h : containsBy eqc pat l = false) :
    subAllF eqc pat rep fuel l = l := by
  induction fuel generalizing l with
  | zero => cases l <;> rfl
  | succ fuel ih =>
    cases l with
    | nil => rfl
    | cons c cs =>
      rw [containsBy, Bool.or_eq_false_iff] at h
      have hc : ¬ (pat ≠ [] ∧ startsWithBy eqc pat (c :: cs) = true) := by
        intro hx
        rw [h.1] at hx
        exact absurd hx.2 (by simp)
      rw [subAllF, if_neg hc, ih cs h.2]

/-- A `subAll` pass over a string without any occurrence of the pattern is
the identity. -/
theorem subAll_of_not_contains (eqc : Char → Char → Bool) (pat rep : List Char)
    (l : List Char) (h : containsBy eqc pat l = false) :
    subAll eqc pat rep l = l :=
  subAllF_of_not_contains eqc pat rep l.length l h

/-- If a literal-pattern search succeeds on the tail, it succeeds on the
whole list. -/
theorem containsBy_cons_of_tail (eqc : Char → Char → Bool) (pat : List Char)
    (c : Char) (cs : List Char) (h : containsBy eqc pat cs = true) :
    containsBy eqc pat (c :: cs) = true := by
  rw [containsBy, h, Bool.or_true]

/-! ## Sanitizer (`src/main.py` lines 39-49 and 427-431) -/

/-- Fueled naive tag-span removal: drop every span from `<` to the next
`>` (the tail is dropped when a `<` is never closed).  Used only inside
the models of the external markup libraries below. -/
def tagStripF : Nat → List Char → List Char
  | _, [] => []
  | 0, l => l
  | fuel + 1, c :: cs =>
    if c = '<' then
      match cs.dropWhile (· ≠ '>') with
      | [] => []
      | _ :: rest => tagStripF fuel rest
    else
      c :: tagStripF fuel cs

def tagStrip (l : List Char) : List Char := tagStripF l.length l

/-- Model of the external whitelist cleaner `bleach.clean` (called with
the module's allowed tags/attributes/protocols and `strip=True`):
on text containing none of the markup metacharacters `<`, `&`, `>` the
cleaner returns its input unchanged — there the model is exact, and every
theorem below that evaluates the model does so on such input.  The
markup branch (tag-span stripping) is only a placeholder: real bleach
keeps allowed tags and their allowed attributes (whose values the
serializer does not `<`-escape), so no theorem relies on the markup
branch; statements about markup-bearing cleaner output quantify over the
cleaned text instead. -/
def bleachClean (l : List Char) : List Char :=
  if l.any (fun c => c = '<' || c = '&' || c = '>') then tagStrip l else l

/-- First index (if any) at which the literal pattern occurs, compared by
`eqc`. -/
def findIdxBy (eqc : Char → Char → Bool) (pat : List Char) : List Char → Option Nat
  | [] => if startsWithBy eqc pat [] then some 0 else none
  | c :: cs =>
    if startsWithBy eqc pat (c :: cs) then some 0
    else (findIdxBy eqc pat cs).map (· + 1)

/-- Length of the leftmost-lazy match of `(?is)<script.*?>.*?</script>`
anchored at the head of the list, if any: the literal `<script`, then the
shortest stretch up to a `>`, then the shortest stretch up to the literal
`</script>`. -/
def scriptBlockLen (l : List Char) : Option {n : Nat // 0 < n} :=
  if startsWithBy ciChar "<script".data l then
    match (l.drop 7).findIdx? (· = '>') with
    | none => none
    | some g =>
      match findIdxBy ciChar "</script>".data ((l.drop 7).drop (g + 1)) with
      | none => none
      | some j => some ⟨7 + g + 1 + j + 9, by omega⟩
  else none

/-- Fueled body of the pass
`re.sub(r'(?is)<script.*?>.*?</script>', '', cleaned)`: remove the
leftmost non-overlapping script blocks. -/
def removeScriptBlocksF : Nat → List Char → List Char
  | _, [] => []
  | 0, l => l
  | fuel + 1, c :: cs =>
    match scriptBlockLen (c :: cs) with
    | some n => removeScriptBlocksF fuel ((c :: cs).drop n.1)
    | none => c :: removeScriptBlocksF fuel cs

def removeScriptBlocks (l : List Char) : List Char :=
  removeScriptBlocksF l.length l

/-- The pattern of the final pass `re.sub(r'javascript:', '', ...)`. -/
def jsPat : List Char := "javascript:".data

/-- `sanitize_html` from `src/main.py`: whitelist-clean, then remove
script blocks, then remove `javascript:` occurrences (one `re.sub` pass
each, case-insensitive). -/
def sanitize_html (l : List Char) : List Char :=
  subAll ciChar jsPat [] (removeScriptBlocks (bleachClean l))

/-- Generic Python exception value, for modelling fallible steps. -/
inductive PyErr
  | exc
deriving DecidableEq, Repr

/-- `sanitize_html` with the external cleaner call made explicit as a
fallible step.  The source body installs no exception handler, so a
failure raised inside the cleaning step propagates to the caller. -/
def sanitize_htmlE (clean : List Char → Except PyErr (List Char)) (l : List Char) :
    Except PyErr (List Char) := do
  let c ← clean l
  pure (subAll ciChar jsPat [] (removeScriptBlocks c))

/-- C1 counterexample: the claim says the sanitized output never contains
`javascript:` (case-insensitively), but the single-pass removal splices
the fragments around a removed occurrence back together: the markup-free
input `javajavascript:script:` sanitizes to exactly `javascript:`. -/
theorem c1_counterexample :
    sanitize_html "javajavascript:script:".data = "javascript:".data ∧
    containsBy ciChar "javascript:".data (sanitize_html "javajavascript:script:".data) = true := by
  constructor
  · decide
  · decide

/-- C8 counterexample: the claim says an internal failure yields the empty
string, but `sanitize_html` installs no handler: when the cleaning step
fails, the failure propagates and the result is not the empty string. -/
theorem c8_counterexample :
    sanitize_htmlE (fun _ => Except.error PyErr.exc) "x".data = Except.error PyErr.exc ∧
    sanitize_htmlE (fun _ => Except.error PyErr.exc) "x".data ≠ Except.ok "".data := by
  refine ⟨rfl, ?_⟩
  intro h
  exact Except.noConfusion h

/-- C8 amended: `sanitize_html` always returns a string when the cleaning
step returns one (the two regex passes are total), but an internal failure
of the cleaning step propagates to the caller unchanged instead of
yielding the empty string; on success the result is exactly the pipeline
of the two defence passes over the cleaner's output. -/
theorem c8_amended (clean : List Char → Except PyErr (List Char)) (l : List Char) :
    (∀ e, clean l = Except.error e → sanitize_htmlE clean l = Except.error e) ∧
    (∀ t, clean l = Except.ok t →
      sanitize_htmlE clean l = Except.ok (subAll ciChar jsPat [] (removeScriptBlocks t))) := by
  constructor
  · intro e he
    simp [sanitize_htmlE, he]
  · intro t ht
    simp [sanitize_htmlE, ht]

/-- Witness for `c8_amended`: both branches discharged at concrete
cleaners. -/
theorem c8_amended_witness :
    sanitize_htmlE (fun _ => Except.error PyErr.exc) "y".data = Except.error PyErr.exc ∧
    sanitize_htmlE (fun s => Except.ok s) "y".data =
      Except.ok (subAll ciChar jsPat [] (removeScriptBlocks "y".data)) :=
  ⟨(c8_amended (fun _ => Except.error PyErr.exc) "y".data).1 PyErr.exc rfl,
   (c8_amended (fun s => Except.ok s) "y".data).2 "y".data rfl⟩

/-! ## Priority resolver (`data/src/filter.py`) -/

/-- Model of `email.utils.parseaddr`'s address extraction, limited to the
two header shapes the claims exercise: a bare address (returned stripped)
and `Display Name <addr>` (the bracketed part returned). -/
def parseaddrEmail (l : List Char) : List Char :=
  match findIdxBy csChar ['<'] l with
  | none => pyStrip l
  | some i =>
    match findIdxBy csChar ['>'] (l.drop (i + 1)) with
    | none => []
    | some j => (l.drop (i + 1)).take j

/-- `_extract_email` from `data/src/filter.py`: parse the From header and
lower-case the address part. -/
def _extract_email (l : List Char) : List Char := lowerL (parseaddrEmail l)

/-- Lookup in the priority map (association list; entries are prepended
on load, so the first hit is the last write, matching `dict` updates). -/
def lookupPr : List (List Char × Int) → List Char → Option Int
  | [], _ => none
  | (k, v) :: rest, e => if k = e then some v else lookupPr rest e

/-- Python `int(str)` on an already-stripped or strippable string:
optional sign followed by decimal digits; anything else raises
(modelled as `none`). -/
def digitsToNat (ds : List Char) : Nat :=
  ds.foldl (fun a c => a * 10 + (c.toNat - 48)) 0

def pyInt (l : List Char) : Option Int :=
  match pyStrip l with
  | [] => none
  | '-' :: ds =>
    if ds ≠ [] ∧ ds.all Char.isDigit then some (-(digitsToNat ds : Int)) else none
  | '+' :: ds =>
    if ds ≠ [] ∧ ds.all Char.isDigit then some ((digitsToNat ds : Int)) else none
  | ds => if ds.all Char.isDigit then some ((digitsToNat ds : Int)) else none

/-- `load_priority_map` from `data/src/filter.py`, over the parsed CSV
rows (pairs of the `email` and `priority` column values): skip rows with
a blank email or blank/non-integer priority, lower-case emails, later
duplicates overwrite earlier ones. -/
def load_priority_map (rows : List (List Char × List Char)) : List (List Char × Int) :=
  rows.foldl
    (fun mp row =>
      let email := lowerL (pyStrip row.1)
      let pr := pyStrip row.2
      if email = [] ∨ pr = [] then mp
      else
        match pyInt pr with
        | none => mp
        | some p => (email, p) :: mp)
    []

/-- `get_priority_for_sender` from `data/src/filter.py`: extract the bare
lower-cased address and look it up exactly; an empty extraction or a
missing key is unresolved (`None`). -/
def get_priority_for_sender (hdr : List Char) (mp : List (List Char × Int)) : Option Int :=
  let email := _extract_email hdr
  if email = [] then none else lookupPr mp email

/-- The table of the claim: exact `a@x.com → 1` and a `x.com → 2` row. -/
def c3Table : List (List Char × Int) :=
  load_priority_map [("a@x.com".data, "1".data), ("x.com".data, "2".data)]

/-- C3 counterexample: with the claim's table, resolving `b@x.com` is
claimed to give the domain-suffix priority 2, but the code performs no
domain lookup at all: the result is `None`. -/
theorem c3_counterexample :
    get_priority_for_sender "b@x.com".data c3Table = none ∧
    get_priority_for_sender "b@x.com".data c3Table ≠ some 2 := by
  constructor
  · decide
  · decide

/-- C3 amended: priority resolution extracts the bare address,
lower-cases it, and returns the exact-address match if present, else
unresolved (`None`); there is no domain-suffix fallback.  With the
claim's table `a@x.com` resolves to 1 while both `b@x.com` and `c@y.com`
are unresolved; extraction handles display-name headers and upper-case
addresses. -/
theorem c3_amended :
    get_priority_for_sender "a@x.com".data c3Table = some 1 ∧
    get_priority_for_sender "b@x.com".data c3Table = none ∧
    get_priority_for_sender "c@y.com".data c3Table = none ∧
    get_priority_for_sender "Ann Smith <A@X.COM>".data c3Table = some 1 ∧
    get_priority_for_sender "".data c3Table = none := by
  refine ⟨?_, ?_, ?_, ?_, ?_⟩ <;> decide

/-! ## Deduplicator (`src/main.py` lines 486-494) -/

/-- The slice of a fetched message record that the deduplication and
classification stages read. -/
structure PyMsg where
  message_id : Option (List Char)
  fallback_hash : Option (List Char)
  uid : Option (List Char)
  subject : List Char
  sender : List Char
  text : List Char
  is_newsletter : Bool
deriving DecidableEq, Repr

/-- Python `a or b` on optional strings: `b` when `a` is `None` or empty. -/
def pyOrOpt (a b : Option (List Char)) : Option (List Char) :=
  match a with
  | some s => if s = [] then b else some s
  | none => b

/-- The MessageKey computation of the dedup loop:
`mid = (m.get("message_id") or "").strip()`, then
`key = mid if mid else m.get("fallback_hash") or m.get("uid")`, with a
falsy key (`None` or empty) meaning the message carries no usable
identity. -/
def keyOf (m : PyMsg) : Option (List Char) :=
  let mid := pyStrip (m.message_id.getD [])
  if mid ≠ [] then some mid
  else
    match pyOrOpt m.fallback_hash m.uid with
    | none => none
    | some s => if s = [] then none else some s

/-- The dedup loop with its `seen` set (modelled as the list of keys added
so far). -/
def dedupeGo (seen : List (List Char)) : List PyMsg → List PyMsg
  | [] => []
  | m :: rest =>
    match keyOf m with
    | none => dedupeGo seen rest
    | some k =>
      if k ∈ seen then dedupeGo seen rest
      else m :: dedupeGo (k :: seen) rest

/-- The dedup stage of `main`. -/
def dedupe (msgs : List PyMsg) : List PyMsg := dedupeGo [] msgs

theorem dedupeGo_sublist (seen : List (List Char)) (msgs : List PyMsg) :
    (dedupeGo seen msgs).Sublist msgs := by
  induction msgs generalizing seen with
  | nil => simp [dedupeGo]
  | cons m rest ih =>
    cases hk : keyOf m with
    | none => simpa [dedupeGo, hk] using (ih seen).cons m
    | some k =>
      by_cases hs : k ∈ seen
      · simpa [dedupeGo, hk, hs] using (ih seen).cons m
      · simpa [dedupeGo, hk, hs] using (ih (k :: seen)).cons₂ m

theorem dedupeGo_mem_key (seen : List (List Char)) (msgs : List PyMsg)
    (m : PyMsg) (hm : m ∈ dedupeGo seen msgs) :
    ∃ k, keyOf m = some k ∧ k ∉ seen := by
  induction msgs generalizing seen with
  | nil => simp [dedupeGo] at hm
  | cons m0 rest ih =>
    cases hk0 : keyOf m0 with
    | none =>
      simp only [dedupeGo, hk0] at hm
      exact ih seen hm
    | some k0 =>
      simp only [dedupeGo, hk0] at hm
      by_cases hs : k0 ∈ seen
      · rw [if_pos hs] at hm
        exact ih seen hm
      · rw [if_neg hs] at hm
        rcases List.mem_cons.mp hm with rfl | hm'
        · exact ⟨k0, hk0, hs⟩
        · obtain ⟨k', hk', hns⟩ := ih (k0 :: seen) hm'
          exact ⟨k', hk', fun hmem => hns (List.mem_cons_of_mem _ hmem)⟩

theorem dedupeGo_first (seen : List (List Char)) (msgs : List PyMsg) :
    ∀ m ∈ dedupeGo seen msgs, ∀ k, keyOf m = some k →
      msgs.find? (fun x => keyOf x == some k) = some m := by
  induction msgs generalizing seen with
  | nil => intro m hm; simp [dedupeGo] at hm
  | cons m0 rest ih =>
    intro m hm k hkm
    cases hk0 : keyOf m0 with
    | none =>
      simp only [dedupeGo, hk0] at hm
      rw [List.find?_cons_of_neg _ (by simp [hk0])]
      exact ih seen m hm k hkm
    | some k0 =>
      simp only [dedupeGo, hk0] at hm
      by_cases hs : k0 ∈ seen
      · rw [if_pos hs] at hm
        obtain ⟨k', hk', hns⟩ := dedupeGo_mem_key seen rest m hm
        have hkk : k' = k := by
          rw [hkm] at hk'
          exact (Option.some.inj hk').symm
        subst hkk
        have hne : k0 ≠ k' := fun h => hns (h ▸ hs)
        rw [List.find?_cons_of_neg _ (by simp [hk0]; exact hne)]
        exact ih seen m hm k' hkm
      · rw [if_neg hs] at hm
        rcases List.mem_cons.mp hm with rfl | hm'
        · have hkk : k0 = k := by
            rw [hkm] at hk0
            exact (Option.some.inj hk0).symm
          rw [List.find?_cons_of_pos _ (by simp [hk0, hkk])]
        · obtain ⟨k', hk', hns⟩ := dedupeGo_mem_key (k0 :: seen) rest m hm'
          have hkk : k' = k := by
            rw [hkm] at hk'
            exact (Option.some.inj hk').symm
          subst hkk
          have hne : k0 ≠ k' := fun h => hns (h ▸ List.mem_cons_self k0 seen)
          rw [List.find?_cons_of_neg _ (by simp [hk0]; exact hne)]
          exact ih (k0 :: seen) m hm' k' hkm

theorem dedupeGo_keys_nodup (seen : List (List Char)) (msgs : List PyMsg) :
    ((dedupeGo seen msgs).filterMap keyOf).Nodup := by
  induction msgs generalizing seen with
  | nil => simp [dedupeGo]
  | cons m0 rest ih =>
    cases hk0 : keyOf m0 with
    | none => simpa [dedupeGo, hk0] using ih seen
    | some k0 =>
      by_cases hs : k0 ∈ seen
      · simpa [dedupeGo, hk0, hs] using ih seen
      · have hfm : List.filterMap keyOf (m0 :: dedupeGo (k0 :: seen) rest)
            = k0 :: List.filterMap keyOf (dedupeGo (k0 :: seen) rest) := by
          simp [List.filterMap_cons, hk0]
        simp only [dedupeGo, hk0, if_neg hs]
        rw [hfm, List.nodup_cons]
        refine ⟨?_, ih (k0 :: seen)⟩
        intro hmem
        obtain ⟨m, hm, hkm⟩ := List.mem_filterMap.mp hmem
        obtain ⟨k', hk', hns⟩ := dedupeGo_mem_key (k0 :: seen) rest m hm
        rw [hkm] at hk'
        exact hns ((Option.some.inj hk') ▸ List.mem_cons_self k0 seen)

theorem dedupeGo_covers (msgs : List PyMsg) (m : PyMsg) (k : List Char)
    (hk : keyOf m = some k) :
    ∀ seen, m ∈ msgs → k ∉ seen →
      ∃ m', m' ∈ dedupeGo seen msgs ∧ keyOf m' = some k := by
  induction msgs with
  | nil => intro seen hm; simp at hm
  | cons m0 rest ih =>
    intro seen hm hns
    cases hk0 : keyOf m0 with
    | none =>
      simp only [dedupeGo, hk0]
      rcases List.mem_cons.mp hm with rfl | hm'
      · rw [hk0] at hk
        exact absurd hk (by simp)
      · exact ih seen hm' hns
    | some k0 =>
      simp only [dedupeGo, hk0]
      by_cases hs : k0 ∈ seen
      · rw [if_pos hs]
        rcases List.mem_cons.mp hm with rfl | hm'
        · rw [hk0] at hk
          exact absurd ((Option.some.inj hk) ▸ hs) hns
        · exact ih seen hm' hns
      · rw [if_neg hs]
        by_cases hkk : k = k0
        · exact ⟨m0, List.mem_cons_self _ _, hkk ▸ hk0⟩
        · rcases List.mem_cons.mp hm with rfl | hm'
          · rw [hk0] at hk
            exact absurd (Option.some.inj hk).symm hkk
          · obtain ⟨m', hm'', hk''⟩ :=
              ih (k0 :: seen) hm' (by simp [hkk, hns])
            exact ⟨m', List.mem_cons_of_mem _ hm'', hk''⟩

/-- C2: the dedup stage outputs an order-preserving subsequence of the
batch; its MessageKeys (message id if present and non-blank, else
fallback hash, else transport uid) are pairwise distinct; every retained
message is the first message of the batch carrying its key; every usable
key of the batch is represented; and every retained message has a usable
key (identity-less messages are discarded). -/
theorem c2_dedup (msgs : List PyMsg) :
    (dedupe msgs).Sublist msgs ∧
    ((dedupe msgs).filterMap keyOf).Nodup ∧
    (∀ m ∈ dedupe msgs, ∀ k, keyOf m = some k →
      msgs.find? (fun x => keyOf x == some k) = some m) ∧
    (∀ m ∈ msgs, ∀ k, keyOf m = some k →
      ∃ m', m' ∈ dedupe msgs ∧ keyOf m' = some k) ∧
    (∀ m ∈ dedupe msgs, (keyOf m).isSome) := by
  refine ⟨dedupeGo_sublist [] msgs, dedupeGo_keys_nodup [] msgs,
    dedupeGo_first [] msgs, ?_, ?_⟩
  · intro m hm k hk
    exact dedupeGo_covers msgs m k hk [] hm (by simp)
  · intro m hm
    obtain ⟨k, hk, -⟩ := dedupeGo_mem_key [] msgs m hm
    simp [hk]

/-- Example messages for the dedup witness: `msgB` duplicates `msgA`'s
message id (up to whitespace stripping), `msgC` has no usable identity. -/
def msgA : PyMsg :=
  { message_id := some "id1".data, fallback_hash := none, uid := some "7".data,
    subject := "A".data, sender := "a@x.com".data, text := [], is_newsletter := true }

def msgB : PyMsg :=
  { message_id := some " id1 ".data, fallback_hash := some "h".data, uid := some "8".data,
    subject := "B".data, sender := "b@x.com".data, text := [], is_newsletter := true }

def msgC : PyMsg :=
  { message_id := none, fallback_hash := none, uid := none,
    subject := "C".data, sender := "c@y.com".data, text := [], is_newsletter := true }

/-- Witness for `c2_dedup`: on the concrete batch `[msgA, msgB, msgC]`
the first-occurrence clause instantiates to `msgA` for key `id1`. -/
theorem c2_dedup_witness :
    [msgA, msgB, msgC].find? (fun x => keyOf x == some "id1".data) = some msgA :=
  (c2_dedup [msgA, msgB, msgC]).2.2.1 msgA (by decide) "id1".data (by decide)

/-! ## Sorting stage (`src/main.py` lines 433-452, 512-516, 533-534) -/

/-- The date material a selected message carries: a `datetime` value, a
string that parses to a timestamp, an unparsable string, or nothing
(`m.get("date") or m.get("internal_date") or None`). -/
inductive PyDate
  | dt (ts : Int)
  | strOk (ts : Int)
  | strBad
  | absent
deriving DecidableEq, Repr

/-- `parse_date_to_ts` from `src/main.py`: the parsed epoch timestamp,
`0` for a missing or unparsable value. -/
def parse_date_to_ts : PyDate → Int
  | .dt ts => ts
  | .strOk ts => ts
  | .strBad => 0
  | .absent => 0

/-- The `_date_ts` assignment of the selection loop: the parsed
timestamp, with the run's `now` substituted when parsing yielded `0`. -/
def assignTs (now : Int) (p : Int × PyDate) : Int × Int :=
  (p.1, if parse_date_to_ts p.2 = 0 then now else parse_date_to_ts p.2)

/-- The comparison induced by the sort key
`(x["_priority"], -x["_date_ts"])`: priority ascending, then timestamp
descending. -/
def sortKeyLe (a b : Int × Int) : Bool :=
  decide (a.1 < b.1) || (decide (a.1 = b.1) && decide (b.2 ≤ a.2))

/-- The sort stage over the selected batch, modelled on the
(priority, date) slice of each message: assign `_date_ts`, then the
stable sort `sorted(selected, key=...)`. -/
def sortSelected (now : Int) (msgs : List (Int × PyDate)) : List (Int × Int) :=
  (msgs.map (assignTs now)).mergeSort sortKeyLe

theorem sortKeyLe_iff (a b : Int × Int) :
    sortKeyLe a b = true ↔ (a.1 < b.1 ∨ (a.1 = b.1 ∧ b.2 ≤ a.2)) := by
  simp [sortKeyLe]

/-- C5: the emitted collection is pairwise ordered by priority ascending
and, among equal priorities, by derived timestamp descending; it is a
permutation of the assigned batch (no message is excluded), and a message
whose date is absent or unparsable gets the run's `now` as its sort
timestamp. -/
theorem c5_sort (now : Int) (msgs : List (Int × PyDate)) :
    List.Pairwise (fun a b : Int × Int => a.1 < b.1 ∨ (a.1 = b.1 ∧ b.2 ≤ a.2))
      (sortSelected now msgs) ∧
    (sortSelected now msgs).Perm (msgs.map (assignTs now)) ∧
    (sortSelected now msgs).length = msgs.length ∧
    (∀ p ∈ msgs, parse_date_to_ts p.2 = 0 → (assignTs now p).2 = now) := by
  have htrans : ∀ a b c : Int × Int,
      sortKeyLe a b = true → sortKeyLe b c = true → sortKeyLe a c = true := by
    intro a b c hab hbc
    rw [sortKeyLe_iff] at *
    omega
  have htotal : ∀ a b : Int × Int, (sortKeyLe a b || sortKeyLe b a) = true := by
    intro a b
    rw [Bool.or_eq_true, sortKeyLe_iff, sortKeyLe_iff]
    omega
  refine ⟨?_, ?_, ?_, ?_⟩
  · have h := List.sorted_mergeSort htrans htotal (msgs.map (assignTs now))
    exact h.imp (fun hab => (sortKeyLe_iff _ _).mp hab)
  · exact List.mergeSort_perm (msgs.map (assignTs now)) sortKeyLe
  · rw [sortSelected,
      (List.mergeSort_perm (msgs.map (assignTs now)) sortKeyLe).length_eq,
      List.length_map]
  · intro p _ hp
    simp [assignTs, hp]

/-- Witness for `c5_sort`: a message with an unparsable date in a
concrete two-element batch is assigned the run's `now` (here 100). -/
theorem c5_sort_witness :
    (assignTs 100 (2, PyDate.strBad)).2 = 100 :=
  (c5_sort 100 [(2, PyDate.strBad), (1, PyDate.dt 50)]).2.2.2
    (2, PyDate.strBad) (by decide) (by decide)

/-! ## Classifier (`src/fetch.py` lines 89-95, `src/main.py` lines 454-464, 498-502) -/

/-- Word character of `re`'s `\b` boundary (ASCII scope). -/
def isWordChar (c : Char) : Bool := c.isAlphanum || c = '_'

def unsubPat : List Char := "unsubscribe".data

/-- Does `\bunsubscribe\b` (case-insensitive) match at position `i`? -/
def wordTokenAt (l : List Char) (i : Nat) : Bool :=
  (decide (lowerL ((l.drop i).take 11) = unsubPat))
  && (match (l.take i).getLast? with
      | none => true
      | some c => !isWordChar c)
  && (match (l.drop (i + 11)).head? with
      | none => true
      | some c => !isWordChar c)

/-- `re.search(r"\bunsubscribe\b", ..., flags=re.I)` as a Boolean. -/
def searchUnsubToken (l : List Char) : Bool :=
  (List.range l.length).any (wordTokenAt l)

/-- The claim's reading of the search: the token `unsubscribe` occurs
somewhere in the text, case-insensitively, delimited by non-word
characters (or the ends of the text). -/
def UnsubTokenOccurs (l : List Char) : Prop :=
  ∃ pre mid post, l = pre ++ mid ++ post ∧ lowerL mid = unsubPat ∧
    (∀ c, pre.getLast? = some c → isWordChar c = false) ∧
    (∀ c, post.head? = some c → isWordChar c = false)

theorem searchUnsubToken_iff (l : List Char) :
    searchUnsubToken l = true ↔ UnsubTokenOccurs l := by
  constructor
  · intro h
    obtain ⟨i, -, hi⟩ := List.any_eq_true.mp h
    rw [wordTokenAt, Bool.and_eq_true, Bool.and_eq_true] at hi
    obtain ⟨⟨h1, h2⟩, h3⟩ := hi
    refine ⟨l.take i, (l.drop i).take 11, l.drop (i + 11), ?_, decide_eq_true_eq.mp h1, ?_, ?_⟩
    · have hsplit : (l.drop i).take 11 ++ l.drop (i + 11) = l.drop i := by
        have := List.take_append_drop 11 (l.drop i)
        rwa [List.drop_drop] at this
      rw [List.append_assoc, hsplit, List.take_append_drop]
    · intro c hc
      rw [hc] at h2
      simpa using h2
    · intro c hc
      rw [hc] at h3
      simpa using h3
  · rintro ⟨pre, mid, post, rfl, hmid, hpre, hpost⟩
    have hlen : mid.length = 11 := by
      have := congrArg List.length hmid
      simpa [lowerL, unsubPat] using this
    refine List.any_eq_true.mpr ⟨pre.length, ?_, ?_⟩
    · refine List.mem_range.mpr ?_
      simp only [List.length_append]
      omega
    · have hassoc : pre ++ mid ++ post = pre ++ (mid ++ post) :=
        List.append_assoc pre mid post
      have hdropPre : List.drop pre.length (pre ++ mid ++ post) = mid ++ post := by
        rw [hassoc]
        exact List.drop_left pre (mid ++ post)
      have hdropAll : List.drop (pre.length + 11) (pre ++ mid ++ post) = post := by
        refine List.drop_left' ?_
        rw [List.length_append, hlen]
      have htakePre : List.take pre.length (pre ++ mid ++ post) = pre := by
        rw [hassoc]
        exact List.take_left pre (mid ++ post)
      rw [wordTokenAt, Bool.and_eq_true, Bool.and_eq_true]
      refine ⟨⟨?_, ?_⟩, ?_⟩
      · rw [hdropPre, List.take_left' hlen]
        exact decide_eq_true_eq.mpr hmid
      · rw [htakePre]
        cases hc : pre.getLast? with
        | none => rfl
        | some c => simp [hpre c hc]
      · rw [hdropAll]
        cases hc : post.head? with
        | none => rfl
        | some c => simp [hpost c hc]

/-- `_is_newsletter` from `src/fetch.py`: an explicit List-Unsubscribe
header (modelled as the truthiness flag of that header), or a
`\bunsubscribe\b` match in subject + newline + sender + newline + body. -/
def is_newsletter (listUnsub : Bool) (subject sender text : List Char) : Bool :=
  listUnsub || searchUnsubToken (subject ++ '\n' :: (sender ++ '\n' :: text))

/-- `EXCLUDE_SUBJECT_PATTERNS` from `src/main.py` (all literal patterns). -/
def EXCLUDE_SUBJECT_PATTERNS : List (List Char) :=
  ["confirm your subscription".data, "confirm subscription".data,
   "confirm email".data, "verify your email".data, "verification".data,
   "potvrď".data, "ověř".data, "ověřte".data, "confirm".data, "verify".data,
   "action required".data, "please confirm".data]

/-- `subject_is_excluded` from `src/main.py`: any exclusion pattern found
in the lower-cased subject. -/
def subject_is_excluded (subject : List Char) : Bool :=
  EXCLUDE_SUBJECT_PATTERNS.any (fun p => containsBy csChar p (lowerL subject))

/-- The classification gate of the selection loop in `main`: the message
proceeds only when its newsletter flag is set and its subject matches no
exclusion pattern. -/
def passes_classification (m : PyMsg) : Bool :=
  m.is_newsletter && !subject_is_excluded m.subject

/-- C7: `is_newsletter` is true exactly when a list-unsubscribe signal is
present or the token `unsubscribe` occurs (case-insensitively, as a
word-delimited token) in subject+sender+body; and a message proceeds past
classification exactly when it is a newsletter and its subject is not
excluded. -/
theorem c7_classifier (listUnsub : Bool) (subject sender text : List Char) (m : PyMsg) :
    (is_newsletter listUnsub subject sender text = true ↔
      (listUnsub = true ∨
        UnsubTokenOccurs (subject ++ '\n' :: (sender ++ '\n' :: text)))) ∧
    (passes_classification m = true ↔
      (m.is_newsletter = true ∧ subject_is_excluded m.subject = false)) := by
  constructor
  · rw [is_newsletter, Bool.or_eq_true, searchUnsubToken_iff]
  · rw [passes_classification, Bool.and_eq_true, Bool.not_eq_true']

/-! ## Extraction result model and cache (`src/main.py` lines 411-425,
`src/summarize.py`) -/

/-- An extracted item: exactly the four fields the extractor emits
(`link` possibly `None`). -/
structure Item where
  title : List Char
  summary : List Char
  full_text : List Char
  link : Option (List Char)
deriving DecidableEq, Repr

/-- An extraction result: overview plus ordered items. -/
structure ExtractionResult where
  overview : List Char
  items : List Item
deriving DecidableEq, Repr

/-- The cache directory contents: an association of file paths to the
JSON values stored in them.  File contents are held at the decoded-value
level: `json.dumps` / `json.loads` of these records are the standard
library's mutually inverse codec, so a successfully written file parses
back to the value written. -/
def CacheFS : Type := List (List Char × ExtractionResult)

def fsLookup : CacheFS → List Char → Option ExtractionResult
  | [], _ => none
  | (k, v) :: rest, p => if k = p then some v else fsLookup rest p

/-- The cache file path `CACHE_DIR / f"{uid}.json"` (relative to the
cache directory). -/
def cachePath (uid : List Char) : List Char := uid ++ ".json".data

/-- `save_cache` from `src/main.py`: write the whole serialized record to
the key's file (last write wins). -/
def save_cache (uid : List Char) (data : ExtractionResult) (fs : CacheFS) : CacheFS :=
  (cachePath uid, data) :: fs

/-- `load_cache` from `src/main.py`: read and parse the key's file,
`None` when absent. -/
def load_cache (uid : List Char) (fs : CacheFS) : Option ExtractionResult :=
  fsLookup fs (cachePath uid)

/-- C9: cache round-trip — `save_cache uid r` followed by
`load_cache uid` returns a value field-equal to `r`. -/
theorem c9_cache_roundtrip (uid : List Char) (data : ExtractionResult) (fs : CacheFS) :
    load_cache uid (save_cache uid data fs) = some data ∧
    ∃ r, load_cache uid (save_cache uid data fs) = some r ∧
      r.overview = data.overview ∧ r.items = data.items := by
  constructor
  · simp [load_cache, save_cache, fsLookup]
  · exact ⟨data, by simp [load_cache, save_cache, fsLookup], rfl, rfl⟩

/-! ## Item extractor (`src/summarize.py`) -/

/-- Python `sep.join(parts)`. -/
def joinSep (sep : List Char) : List (List Char) → List Char
  | [] => []
  | [a] => a
  | a :: rest => a ++ (sep ++ joinSep sep rest)

/-- Fueled run-collapsing pass `re.sub(r'\n{3,}', '\n\n', t)`: a maximal
run of three or more newlines becomes two; shorter runs pass through. -/
def collapseNLF : Nat → List Char → List Char
  | _, [] => []
  | 0, l => l
  | fuel + 1, c :: cs =>
    if c = '\n' then
      (if 3 ≤ ((c :: cs).takeWhile (· = '\n')).length then ['\n', '\n']
       else (c :: cs).takeWhile (· = '\n')) ++
        collapseNLF fuel ((c :: cs).dropWhile (· = '\n'))
    else
      c :: collapseNLF fuel cs

def collapseNL (l : List Char) : List Char := collapseNLF l.length l

/-- Python `str.splitlines()` over the terminators `\n`, `\r`, `\r\n`:
terminators end lines, a trailing terminator adds no empty final line.
Python also breaks on `\v`, `\f`, `\x1c`-`\x1e`, `\x85`, `\u2028`,
`\u2029`; every theorem that depends on the line structure restricts its
lines to printable ASCII, where the terminator sets coincide. -/
def splitLinesF : Nat → List Char → List Char → List (List Char)
  | _, cur, [] => [cur.reverse]
  | 0, cur, l => [cur.reverse ++ l]
  | fuel + 1, cur, c :: rest =>
    if c = '\r' then
      if rest.head? = some '\n' then
        cur.reverse :: (if rest.tail.isEmpty then [] else splitLinesF fuel [] rest.tail)
      else
        cur.reverse :: (if rest.isEmpty then [] else splitLinesF fuel [] rest)
    else if c = '\n' then
      cur.reverse :: (if rest.isEmpty then [] else splitLinesF fuel [] rest)
    else
      splitLinesF fuel (c :: cur) rest

def splitLinesPy (l : List Char) : List (List Char) :=
  if l.isEmpty then [] else splitLinesF l.length [] l

/-- Fueled body of `re.split(r'\n{1,}', t)`: split on maximal newline
runs, keeping empty leading/trailing pieces as Python does. -/
def splitNLrunsF : Nat → List Char → List Char → List (List Char)
  | _, cur, [] => [cur.reverse]
  | 0, cur, l => [cur.reverse ++ l]
  | fuel + 1, cur, c :: rest =>
    if c = '\n' then
      cur.reverse :: splitNLrunsF fuel [] (rest.dropWhile (· = '\n'))
    else
      splitNLrunsF fuel (c :: cur) rest

def splitNLruns (l : List Char) : List (List Char) := splitNLrunsF l.length [] l

/-- Sentence-ending punctuation of the lookbehind `(?<=[.!?])`. -/
def sentEnd (c : Char) : Bool := c = '.' || c = '!' || c = '?'

/-- Fueled body of `re.split(r'(?<=[.!?])\s+', p)`: split at maximal
whitespace runs that directly follow sentence punctuation. -/
def splitSentF : Nat → List Char → List Char → List (List Char)
  | _, cur, [] => [cur.reverse]
  | 0, cur, l => [cur.reverse ++ l]
  | fuel + 1, cur, c :: rest =>
    if pySpace c && (match cur with | p :: _ => sentEnd p | [] => false) then
      cur.reverse :: splitSentF fuel [] (rest.dropWhile pySpace)
    else
      splitSentF fuel (c :: cur) rest

def splitSentences (l : List Char) : List (List Char) := splitSentF l.length [] l

/-- Length contributed by the optional `s` of `https?` at the head of a
match. -/
def urlSLen (l : List Char) : Nat :=
  match (l.drop 4).head? with
  | some c => if ciChar 's' c then 1 else 0
  | none => 0

/-- Length of the greedy match of `https?://[charclass]+` anchored at the
head of the list, if any (the character class is a parameter: the two
modules compile slightly different classes). -/
def matchUrlLen (ok : Char → Bool) (l : List Char) : Option {n : Nat // 0 < n} :=
  if startsWithBy ciChar "http".data l then
    if startsWithBy csChar "://".data (l.drop (4 + urlSLen l)) then
      if ((l.drop (4 + urlSLen l + 3)).takeWhile ok).length = 0 then none
      else some ⟨4 + urlSLen l + 3 + ((l.drop (4 + urlSLen l + 3)).takeWhile ok).length, by omega⟩
    else none
  else none

/-- `URL_RE` character class of `src/main.py`: `[^\s\'"<>]`. -/
def urlCharMain (c : Char) : Bool :=
  !pySpace c && c ≠ apos && c ≠ '"' && c ≠ '<' && c ≠ '>'

/-- `URL_RE` character class of `src/summarize.py`:
`[^\s\'"<>)+\)]` (additionally excludes `)` and `+`). -/
def urlCharSum (c : Char) : Bool :=
  urlCharMain c && c ≠ ')' && c ≠ '+'

/-- Fueled body of the URL-tagging pass
`URL_RE.sub(lambda m: f"(odkaz zde: {m.group(1)})", t)` of
`src/main.py`. -/
def urlSubF (ok : Char → Bool) : Nat → List Char → List Char
  | _, [] => []
  | 0, l => l
  | fuel + 1, c :: cs =>
    match matchUrlLen ok (c :: cs) with
    | some n =>
      "(odkaz zde: ".data ++ (c :: cs).take n.1 ++ [')'] ++
        urlSubF ok fuel ((c :: cs).drop n.1)
    | none => c :: urlSubF ok fuel cs

def urlSubMain (l : List Char) : List Char := urlSubF urlCharMain l.length l

/-- `URL_RE.search(p)`, returning the matched URL (group 1 is the whole
match in both modules). -/
def findUrl (ok : Char → Bool) : List Char → Option (List Char)
  | [] => none
  | c :: cs =>
    match matchUrlLen ok (c :: cs) with
    | some n => some ((c :: cs).take n.1)
    | none => findUrl ok cs

/-- Model of the external `BeautifulSoup(html, "html.parser")
.get_text(separator="\n")`: identity on text containing neither tags nor
character entities; tag spans stripped otherwise (entity decoding is not
modelled — no theorem below evaluates the model on entity-bearing
input). -/
def getTextModel (l : List Char) : List Char :=
  if l.any (fun c => c = '<' || c = '&') then tagStrip l else l

/-- The `TECHNICAL_PATTERNS` list of `src/summarize.py` (all literal
case-insensitive phrases). -/
def TECH_PATTERNS_SUM : List (List Char) :=
  ["nezobrazuje se vám newsletter správně".data,
   "if you are having trouble viewing this email".data,
   "click here to view in your browser".data,
   "zobrazit v prohlížeči".data,
   "if you can".data ++ apos :: "t see images".data,
   "view in browser".data]

/-- The `TECHNICAL_PATTERNS` list of `src/main.py`: the same phrases plus
`local tracking pixel`. -/
def TECH_PATTERNS_MAIN : List (List Char) :=
  TECH_PATTERNS_SUM ++ ["local tracking pixel".data]

/-- `_strip_technical` from `src/summarize.py`: remove the technical
phrases, collapse newline runs, strip. -/
def strip_technical_sum (t : List Char) : List Char :=
  pyStrip (collapseNL (TECH_PATTERNS_SUM.foldl (fun acc p => subAll ciChar p [] acc) t))

/-- The boilerplate-line alternation of `_strip_technical` in
`src/main.py`. -/
def BOILER_MAIN : List (List Char) :=
  ["unsubscribe".data, "odhlásit".data, "preferences".data,
   "manage your subscription".data, "privacy policy".data,
   "view in browser".data, "zobrazit v prohlíče".data]

/-- The per-line filter of `_strip_technical` in `src/main.py`: keep
stripped lines that are nonempty, at least 10 characters, and free of the
boilerplate alternation. -/
def usefulLine (ln : List Char) : Bool :=
  !ln.isEmpty && decide (10 ≤ ln.length) &&
    !(BOILER_MAIN.any (fun p => containsBy ciChar p ln))

/-- `_strip_technical` from `src/main.py`: remove the technical phrases,
then keep only the useful stripped lines, rejoined with blank lines. -/
def strip_technical_main (t : List Char) : List Char :=
  pyStrip (joinSep ['\n', '\n']
    (((splitLinesPy (TECH_PATTERNS_MAIN.foldl (fun acc p => subAll ciChar p [] acc) t)).map
        pyStrip).filter usefulLine))

/-- `html_to_plain_text` from `src/main.py`: markup (or fallback) to
canonical plain text — convert, normalize line ends, tag URLs, strip
technical content, collapse blank-line runs, strip. -/
def html_to_plain_text (html fallback : List Char) : List Char :=
  pyStrip (collapseNL (strip_technical_main (urlSubMain (subAll csChar ['\r', '\n'] ['\n']
    (if html = [] ∧ fallback ≠ [] then fallback else getTextModel html)))))

/-- `_to_plain_text` from `src/summarize.py`: the fallback text when
markup is absent, else the converted markup. -/
def _to_plain_text (html fallback : List Char) : List Char :=
  if html = [] ∧ fallback ≠ [] then fallback else getTextModel html

/-- The boilerplate alternation of the candidate-paragraph filter in
`_naive_sections`. -/
def BOILER_SUM : List (List Char) :=
  ["unsubscribe".data, "odhlásit".data, "manage your subscription".data,
   "preferences".data, "privacy policy".data]

/-- The candidate-paragraph loop of `_naive_sections`: at most 8 items,
first-80-character dedup keys (recorded even for skipped boilerplate
paragraphs), title/summary from the first sentence, link from the first
URL in the paragraph. -/
def candLoop : List (List Char) → List (List Char) → Nat → List Item
  | [], _, _ => []
  | p :: rest, seen, count =>
    if 8 ≤ count then []
    else if p.take 80 ∈ seen then candLoop rest seen count
    else if BOILER_SUM.any (fun b => containsBy ciChar b p) then
      candLoop rest (p.take 80 :: seen) count
    else
      { title := ((splitSentences (pyStrip p)).headD []).take 80,
        summary := ((splitSentences (pyStrip p)).headD []).take 300,
        full_text := pyStrip p,
        link := findUrl urlCharSum p } ::
        candLoop rest (p.take 80 :: seen) (count + 1)

/-- `_naive_sections` from `src/summarize.py`: overview from the first
informative lines, items from long non-boilerplate paragraphs, fallback
to the first lines verbatim, technical phrases stripped in a post-pass. -/
def naive_sections (text html : List Char) : ExtractionResult :=
  let plain := strip_technical_sum (_to_plain_text html text)
  let lines := ((splitLinesPy plain).map pyStrip).filter (fun l => !l.isEmpty)
  let overview :=
    if lines.isEmpty then [] else (joinSep [' '] (lines.take 3)).take 400
  let items0 :=
    candLoop ((splitNLruns plain).filter (fun p => decide (60 < (pyStrip p).length))) [] 0
  let items1 :=
    if items0.isEmpty && !lines.isEmpty then
      (lines.take 4).map (fun s =>
        { title := s.take 80, summary := s.take 200, full_text := s,
          link := findUrl urlCharSum s })
    else items0
  { overview := strip_technical_sum overview,
    items := items1.map (fun it =>
      { it with summary := strip_technical_sum it.summary,
                full_text := strip_technical_sum it.full_text }) }

/-- The generative prompt built by `extract_items_from_message` (braces
of the JSON template written as their escapes). -/
def promptText (subject text : List Char) : List Char :=
  "Extract a concise OVERVIEW (one short paragraph) of the email and up to 12 meaningful sections.".data ++
  "Return valid JSON with structure \x7b\"overview\":\"...\",\"items\":[\x7b\"title\":\"...\",\"summary\":\"...\",\"full_text\":\"...\",\"link\":<url|null>\x7d]\x7d.".data ++
  "\n\nEMAIL SUBJECT:\n".data ++ subject ++ "\n\nEMAIL TEXT:\n".data ++ text

/-- `extract_items_from_message` from `src/summarize.py`, with the
external call and the defensive JSON parse as explicit parameters:
`llm` is `_call_openai_chat` (`None` on any failure), `parseResp` is
`json.loads` plus the dict-with-"items" validation (`none` on a parse
error or failed validation).  Any non-usable response falls through to
the heuristic; with the API disabled the heuristic is used directly.
(`text or ""` / `html or ""` are identities on the modelled strings.) -/
def extract_items_from_message (useApi : Bool)
    (llm : List Char → Option (List Char))
    (parseResp : List Char → Option ExtractionResult)
    (subject frm text html uid : List Char) : ExtractionResult :=
  if useApi then
    match llm (promptText subject text) with
    | some resp =>
      if resp = [] then naive_sections text html
      else
        match parseResp resp with
        | some data => data
        | none => naive_sections text html
    | none => naive_sections text html
  else
    naive_sections text html

/-- C6: when every generative call fails to produce a usable response
(no response, an empty one, or one that does not parse and validate),
the extractor returns exactly the heuristic's result for the identical
input; the caller observes only this `ExtractionResult`, never a
strategy-specific error. -/
theorem c6_extraction_fallback (useApi : Bool)
    (llm : List Char → Option (List Char))
    (parseResp : List Char → Option ExtractionResult)
    (subject frm text html uid : List Char)
    (hfail : ∀ p r, llm p = some r → r = [] ∨ parseResp r = none) :
    extract_items_from_message useApi llm parseResp subject frm text html uid =
      naive_sections text html := by
  rw [extract_items_from_message]
  cases useApi with
  | false => rw [if_neg (by simp)]
  | true =>
    rw [if_pos rfl]
    cases hr : llm (promptText subject text) with
    | none => rfl
    | some r =>
      rcases hfail _ r hr with h | h
      · simp [h]
      · by_cases he : r = []
        · simp [he]
        · simp [he, h]

/-- Witness for `c6_extraction_fallback` at an always-failing strategy on
concrete inputs. -/
theorem c6_extraction_fallback_witness :
    extract_items_from_message true (fun _ => none) (fun _ => none)
      "Subj".data "a@x.com".data "body text".data [] "uid1".data =
      naive_sections "body text".data [] :=
  c6_extraction_fallback true (fun _ => none) (fun _ => none)
    "Subj".data "a@x.com".data "body text".data [] "uid1".data
    (fun _ r h => Option.noConfusion h)

/-- The `except` branch of `extract_items_from_message`: the minimal
last-resort result built from the first three lines of the raw text. -/
def last_resort (text : List Char) : ExtractionResult :=
  let ov := (joinSep [' '] ((splitLinesPy text).take 3)).take 400
  { overview := ov,
    items := [{ title := ov.take 80, summary := ov, full_text := ov, link := none }] }

/-- `extract_items_from_message`'s outer `try/except`, with the guarded
heuristic outcome explicit: a heuristic failure is absorbed into the
last-resort result instead of propagating. -/
def extract_guarded (heuristic : Except PyErr ExtractionResult) (text : List Char) :
    ExtractionResult :=
  match heuristic with
  | .ok r => r
  | .error _ => last_resort text

theorem candLoop_length_le (ps seen : List (List Char)) (count : Nat) :
    (candLoop ps seen count).length ≤ 8 - count := by
  induction ps generalizing seen count with
  | nil => simp [candLoop]
  | cons p rest ih =>
    rw [candLoop]
    by_cases h8 : 8 ≤ count
    · simp [h8]
    · rw [if_neg h8]
      by_cases hk : p.take 80 ∈ seen
      · rw [if_pos hk]
        exact ih seen count
      · rw [if_neg hk]
        by_cases hb : BOILER_SUM.any (fun b => containsBy ciChar b p) = true
        · rw [if_pos hb]
          exact ih _ count
        · rw [if_neg hb]
          simp only [List.length_cons]
          have := ih (p.take 80 :: seen) (count + 1)
          omega

/-- C10: the extractor's output is well formed for every input — the
overview is a string and the items list holds at most 8 entries, each
carrying exactly the four fields of `Item` (with `link` optional) by
construction of the `Item` type; a heuristic failure is absorbed into a
single-item last-resort result, also within the bound. -/
theorem c10_shape (text html t2 : List Char) (e : PyErr) :
    (naive_sections text html).items.length ≤ 8 ∧
    extract_guarded (Except.ok (naive_sections text html)) t2 = naive_sections text html ∧
    (extract_guarded (Except.error e) t2).items.length = 1 := by
  refine ⟨?_, rfl, rfl⟩
  rw [naive_sections]
  simp only [List.length_map]
  split
  · calc (List.map _ (List.take 4 _)).length ≤ 4 := by
          rw [List.length_map]
          exact List.length_take_le 4 _
      _ ≤ 8 := by omega
  · have := candLoop_length_le ((splitNLruns (strip_technical_sum (_to_plain_text html text))).filter
      (fun p => decide (60 < (pyStrip p).length))) [] 0
    omega

/-! ## Normalizer idempotence analysis (`src/main.py` lines 367-406) -/

theorem length_dropWhile_le (p : Char → Bool) (l : List Char) :
    (l.dropWhile p).length ≤ l.length :=
  (List.dropWhile_sublist p).length_le

theorem dropWhile_eq_self_of_length (p : Char → Bool) (l : List Char)
    (h : (l.dropWhile p).length = l.length) : l.dropWhile p = l := by
  induction l with
  | nil => rfl
  | cons c cs ih =>
    rw [List.dropWhile_cons] at h ⊢
    by_cases hp : p c = true
    · rw [if_pos hp] at h
      have hle := length_dropWhile_le p cs
      simp only [List.length_cons] at h
      exact absurd h (by omega)
    · rw [if_neg hp]

/-- A strip-fixed string is fixed by each one-sided trim. -/
theorem pyStrip_eq_self_parts (l : List Char) (h : pyStrip l = l) :
    l.dropWhile pySpace = l ∧ l.reverse.dropWhile pySpace = l.reverse := by
  have h1 : ((l.dropWhile pySpace).reverse.dropWhile pySpace).length = l.length := by
    have := congrArg List.length h
    simpa [pyStrip] using this
  have le1 : ((l.dropWhile pySpace).reverse.dropWhile pySpace).length ≤
      (l.dropWhile pySpace).length := by
    have := length_dropWhile_le pySpace (l.dropWhile pySpace).reverse
    simpa using this
  have le2 := length_dropWhile_le pySpace l
  have e2 : (l.dropWhile pySpace).length = l.length := by omega
  have hd : l.dropWhile pySpace = l := dropWhile_eq_self_of_length _ _ e2
  refine ⟨hd, ?_⟩
  apply dropWhile_eq_self_of_length
  rw [hd] at h1
  simpa using h1

theorem head_not_space_of_strip_fixed (l : List Char) (h : pyStrip l = l) :
    ∀ c, l.head? = some c → pySpace c = false := by
  intro c hc
  obtain ⟨hd, -⟩ := pyStrip_eq_self_parts l h
  cases l with
  | nil => simp at hc
  | cons a as =>
    obtain rfl : a = c := by simpa using hc
    by_contra hp
    rw [List.dropWhile_cons, if_pos (by simpa using hp)] at hd
    have hle := length_dropWhile_le pySpace as
    have := congrArg List.length hd
    simp at this
    omega

theorem last_not_space_of_strip_fixed (l : List Char) (h : pyStrip l = l) :
    ∀ c, l.getLast? = some c → pySpace c = false := by
  intro c hc
  obtain ⟨-, hrev⟩ := pyStrip_eq_self_parts l h
  rw [← List.head?_reverse] at hc
  rcases hl : l.reverse with _ | ⟨a, as⟩
  · rw [hl] at hc
    simp at hc
  · rw [hl] at hc hrev
    obtain rfl : a = c := by simpa using hc
    by_contra hp
    rw [List.dropWhile_cons, if_pos (by simpa using hp)] at hrev
    have hle := length_dropWhile_le pySpace as
    have := congrArg List.length hrev
    simp at this
    omega

theorem pyStrip_eq_self_of_ends (l : List Char)
    (h1 : ∀ c, l.head? = some c → pySpace c = false)
    (h2 : ∀ c, l.getLast? = some c → pySpace c = false) :
    pyStrip l = l := by
  have hd : l.dropWhile pySpace = l := by
    cases l with
    | nil => rfl
    | cons a as =>
      rw [List.dropWhile_cons, if_neg]
      simp [h1 a rfl]
  rw [pyStrip, hd]
  have hr : l.reverse.dropWhile pySpace = l.reverse := by
    cases hl : l.reverse with
    | nil => rfl
    | cons a as =>
      rw [List.dropWhile_cons, if_neg]
      have hla : l.getLast? = some a := by
        rw [← List.head?_reverse, hl]
        rfl
      simp [h2 a hla]
  rw [hr, List.reverse_reverse]

theorem joinSep_cons_cons (sep a b : List Char) (rest : List (List Char)) :
    joinSep sep (a :: b :: rest) = a ++ (sep ++ joinSep sep (b :: rest)) := rfl

theorem joinSep_ne_nil (sep a : List Char) (rest : List (List Char)) (ha : a ≠ []) :
    joinSep sep (a :: rest) ≠ [] := by
  cases rest with
  | nil => simpa [joinSep] using ha
  | cons b r =>
    rw [joinSep_cons_cons]
    simp [List.append_eq_nil, ha]

theorem joinSep_head? (sep a : List Char) (rest : List (List Char)) (ha : a ≠ []) :
    (joinSep sep (a :: rest)).head? = a.head? := by
  cases rest with
  | nil => rfl
  | cons b r =>
    rw [joinSep_cons_cons, List.head?_append]
    cases a with
    | nil => exact absurd rfl ha
    | cons x xs => rfl

theorem joinSep_getLast?_mem (sep : List Char) (L : List (List Char))
    (hL : L ≠ []) (hne : ∀ l ∈ L, l ≠ []) :
    ∃ l ∈ L, (joinSep sep L).getLast? = l.getLast? := by
  induction L with
  | nil => exact absurd rfl hL
  | cons a rest ih =>
    cases rest with
    | nil => exact ⟨a, by simp, rfl⟩
    | cons b r =>
      obtain ⟨l, hl, he⟩ := ih (by simp) (fun x hx => hne x (List.mem_cons_of_mem a hx))
      refine ⟨l, List.mem_cons_of_mem a hl, ?_⟩
      rw [joinSep_cons_cons, List.getLast?_append, List.getLast?_append]
      have hnn : (joinSep sep (b :: r)).getLast?.isSome := by
        cases hj : joinSep sep (b :: r) with
        | nil => exact absurd hj (joinSep_ne_nil sep b r (hne b (by simp)))
        | cons x xs => simp [List.getLast?_cons]
      cases hj : (joinSep sep (b :: r)).getLast? with
      | none =>
        rw [hj] at hnn
        simp at hnn
      | some x =>
        rw [hj] at he
        rw [← he]
        rfl

theorem mem_joinSep (sep : List Char) (L : List (List Char)) (c : Char)
    (hc : c ∈ joinSep sep L) : (∃ l ∈ L, c ∈ l) ∨ c ∈ sep := by
  induction L with
  | nil => simp [joinSep] at hc
  | cons a rest ih =>
    cases rest with
    | nil => exact Or.inl ⟨a, by simp, by simpa [joinSep] using hc⟩
    | cons b r =>
      rw [joinSep_cons_cons] at hc
      rcases List.mem_append.mp hc with h | h
      · exact Or.inl ⟨a, by simp, h⟩
      · rcases List.mem_append.mp h with h | h
        · exact Or.inr h
        · rcases ih h with ⟨l, hl, hcl⟩ | h
          · exact Or.inl ⟨l, List.mem_cons_of_mem a hl, hcl⟩
          · exact Or.inr h

theorem containsBy_iff_exists_startsWith (eqc : Char → Char → Bool)
    (pat l : List Char) :
    containsBy eqc pat l = true ↔ ∃ i, startsWithBy eqc pat (l.drop i) = true := by
  induction l with
  | nil =>
    rw [containsBy]
    constructor
    · intro h
      exact ⟨0, h⟩
    · rintro ⟨i, hi⟩
      simpa using hi
  | cons c cs ih =>
    rw [containsBy, Bool.or_eq_true, ih]
    constructor
    · rintro (h | ⟨i, hi⟩)
      · exact ⟨0, h⟩
      · exact ⟨i + 1, hi⟩
    · rintro ⟨i, hi⟩
      cases i with
      | zero => exact Or.inl hi
      | succ j => exact Or.inr ⟨j, hi⟩

theorem containsBy_drop_eq_false (eqc : Char → Char → Bool) (pat l : List Char)
    (i : Nat) (h : containsBy eqc pat l = false) :
    containsBy eqc pat (l.drop i) = false := by
  cases hq : containsBy eqc pat (l.drop i) with
  | false => rfl
  | true =>
    obtain ⟨j, hj⟩ := (containsBy_iff_exists_startsWith eqc pat (l.drop i)).mp hq
    rw [List.drop_drop] at hj
    have := (containsBy_iff_exists_startsWith eqc pat l).mpr ⟨i + j, hj⟩
    rw [h] at this
    exact Bool.noConfusion this

theorem matchUrlLen_eq_none (ok : Char → Bool) (l : List Char)
    (h : containsBy csChar "://".data l = false) : matchUrlLen ok l = none := by
  have hin : ∀ s, ¬ startsWithBy csChar "://".data (l.drop s) = true := by
    intro s hq
    have := (containsBy_iff_exists_startsWith csChar "://".data l).mpr ⟨s, hq⟩
    rw [h] at this
    exact Bool.noConfusion this
  rw [matchUrlLen]
  by_cases h4 : startsWithBy ciChar "http".data l = true
  · rw [if_pos h4, if_neg (hin (4 + urlSLen l))]
  · rw [if_neg h4]

theorem urlSubF_id (ok : Char → Bool) (fuel : Nat) (l : List Char)
    (h : ∀ i, matchUrlLen ok (l.drop i) = none) : urlSubF ok fuel l = l := by
  induction fuel generalizing l with
  | zero => cases l <;> rfl
  | succ f ih =>
    cases l with
    | nil => rfl
    | cons c cs =>
      rw [urlSubF]
      have h0 : matchUrlLen ok (c :: cs) = none := h 0
      rw [h0]
      exact congrArg (c :: ·) (ih cs (fun i => h (i + 1)))

theorem urlSubMain_id (l : List Char)
    (h : containsBy csChar "://".data l = false) : urlSubMain l = l :=
  urlSubF_id urlCharMain l.length l
    (fun i => matchUrlLen_eq_none urlCharMain (l.drop i) (containsBy_drop_eq_false _ _ _ i h))

theorem containsBy_cs_eq_false_of_not_mem (p : Char) (ps l : List Char)
    (h : p ∉ l) : containsBy csChar (p :: ps) l = false := by
  induction l with
  | nil => rfl
  | cons c cs ih =>
    rw [containsBy]
    apply Bool.or_eq_false_iff.mpr
    refine ⟨?_, ih (fun hm => h (List.mem_cons_of_mem c hm))⟩
    rw [startsWithBy]
    have hpc : p ≠ c := by
      intro hq
      exact h (by simp [hq])
    have : csChar p c = false := by simp [csChar, hpc]
    rw [this, Bool.false_and]

theorem foldl_subAll_id (eqc : Char → Char → Bool) (pats : List (List Char))
    (t : List Char) (h : ∀ p ∈ pats, containsBy eqc p t = false) :
    pats.foldl (fun acc p => subAll eqc p [] acc) t = t := by
  induction pats with
  | nil => rfl
  | cons p ps ih =>
    rw [List.foldl_cons, subAll_of_not_contains eqc p [] t (h p (by simp))]
    exact ih (fun q hq => h q (List.mem_cons_of_mem p hq))

/-- The line structure of a double-newline join: the lines interleaved
with the empty lines the separators create. -/
def interleaveBlank : List (List Char) → List (List Char)
  | [] => []
  | [a] => [a]
  | a :: rest => a :: [] :: interleaveBlank rest

theorem splitLinesF_append (l : List Char) :
    ∀ (fuel : Nat) (cur s : List Char), l.length ≤ fuel →
      (∀ c ∈ l, c ≠ '\n' ∧ c ≠ '\r') →
      splitLinesF fuel cur (l ++ s) = splitLinesF (fuel - l.length) (l.reverse ++ cur) s := by
  induction l with
  | nil =>
    intro fuel cur s _ _
    simp
  | cons c cs ih =>
    intro fuel cur s hf hc
    cases fuel with
    | zero => simp at hf
    | succ f =>
      have hcc := hc c (by simp)
      rw [List.cons_append, splitLinesF]
      rw [if_neg (by simp [hcc.2]), if_neg (by simp [hcc.1])]
      rw [ih f (c :: cur) s (by simpa using hf)
        (fun x hx => hc x (List.mem_cons_of_mem c hx))]
      have harr : (c :: cs).reverse ++ cur = cs.reverse ++ (c :: cur) := by
        simp
      have hlen : f + 1 - (c :: cs).length = f - cs.length := by
        simp [Nat.succ_sub_succ]
      rw [harr, hlen]

theorem splitLinesF_joinSep (L : List (List Char))
    (hne : ∀ l ∈ L, l ≠ [])
    (hch : ∀ l ∈ L, ∀ c ∈ l, c ≠ '\n' ∧ c ≠ '\r') :
    ∀ fuel, (joinSep ['\n', '\n'] L).length ≤ fuel → L ≠ [] →
      splitLinesF fuel [] (joinSep ['\n', '\n'] L) = interleaveBlank L := by
  induction L with
  | nil => intro fuel _ h; exact absurd rfl h
  | cons a rest ih =>
    intro fuel hfuel _h
    cases rest with
    | nil =>
      show splitLinesF fuel [] a = [a]
      have ha : a ++ ([] : List Char) = a := List.append_nil a
      rw [← ha, splitLinesF_append a fuel [] []
        (by simpa [joinSep, ha] using hfuel) (hch a (by simp))]
      simp [splitLinesF]
    | cons b r =>
      have hj : joinSep ['\n', '\n'] (a :: b :: r) =
          a ++ ('\n' :: '\n' :: joinSep ['\n', '\n'] (b :: r)) := rfl
      rw [hj] at hfuel ⊢
      rw [splitLinesF_append a fuel [] _
        (by simp only [List.length_append] at hfuel; omega) (hch a (by simp))]
      have hblen : 2 + (joinSep ['\n', '\n'] (b :: r)).length ≤ fuel - a.length := by
        simp only [List.length_append, List.length_cons] at hfuel ⊢
        omega
      obtain ⟨f1, he1⟩ : ∃ f1, fuel - a.length = f1 + 1 :=
        ⟨fuel - a.length - 1, by omega⟩
      rw [he1]
      rw [splitLinesF]
      rw [if_neg (by simp), if_pos rfl]
      rw [if_neg (by simp)]
      obtain ⟨f2, he2⟩ : ∃ f2, f1 = f2 + 1 := ⟨f1 - 1, by omega⟩
      rw [he2, splitLinesF]
      rw [if_neg (by simp), if_pos rfl]
      have hjb : joinSep ['\n', '\n'] (b :: r) ≠ [] :=
        joinSep_ne_nil _ _ _ (hne b (by simp))
      rw [if_neg (by simpa [List.isEmpty_iff] using hjb)]
      rw [ih (fun l hl => hne l (List.mem_cons_of_mem a hl))
        (fun l hl => hch l (List.mem_cons_of_mem a hl)) f2 (by omega) (by simp)]
      simp [interleaveBlank]

theorem splitLinesPy_joinSep (L : List (List Char))
    (hne : ∀ l ∈ L, l ≠ [])
    (hch : ∀ l ∈ L, ∀ c ∈ l, c ≠ '\n' ∧ c ≠ '\r') :
    splitLinesPy (joinSep ['\n', '\n'] L) = interleaveBlank L := by
  cases L with
  | nil => rfl
  | cons a rest =>
    rw [splitLinesPy,
      if_neg (by simpa [List.isEmpty_iff] using joinSep_ne_nil ['\n', '\n'] a rest (hne a (by simp)))]
    exact splitLinesF_joinSep (a :: rest) hne hch _ le_rfl (by simp)

theorem map_pyStrip_interleave (L : List (List Char))
    (hstrip : ∀ l ∈ L, pyStrip l = l) :
    (interleaveBlank L).map pyStrip = interleaveBlank L := by
  induction L with
  | nil => rfl
  | cons a rest ih =>
    cases rest with
    | nil => simp [interleaveBlank, hstrip a (by simp)]
    | cons b r =>
      show pyStrip a :: pyStrip [] :: (interleaveBlank (b :: r)).map pyStrip =
        a :: [] :: interleaveBlank (b :: r)
      rw [hstrip a (by simp), ih (fun l hl => hstrip l (List.mem_cons_of_mem a hl))]
      rfl

theorem filter_useful_interleave (L : List (List Char))
    (huse : ∀ l ∈ L, usefulLine l = true) :
    (interleaveBlank L).filter usefulLine = L := by
  induction L with
  | nil => rfl
  | cons a rest ih =>
    cases rest with
    | nil => simp [interleaveBlank, List.filter, huse a (by simp)]
    | cons b r =>
      show List.filter usefulLine (a :: [] :: interleaveBlank (b :: r)) = a :: b :: r
      rw [List.filter_cons_of_pos (huse a (by simp)),
        List.filter_cons_of_neg (by simp [usefulLine])]
      rw [ih (fun l hl => huse l (List.mem_cons_of_mem a hl))]

theorem collapseNLF_append (l : List Char) :
    ∀ (fuel : Nat) (s : List Char), l.length ≤ fuel → (∀ c ∈ l, c ≠ '\n') →
      collapseNLF fuel (l ++ s) = l ++ collapseNLF (fuel - l.length) s := by
  induction l with
  | nil =>
    intro fuel s _ _
    simp
  | cons c cs ih =>
    intro fuel s hf hc
    cases fuel with
    | zero => simp at hf
    | succ f =>
      have hcn : c ≠ '\n' := hc c (by simp)
      rw [List.cons_append, collapseNLF, if_neg hcn]
      rw [ih f s (by simpa using hf) (fun x hx => hc x (List.mem_cons_of_mem c hx))]
      have hlen : f + 1 - (c :: cs).length = f - cs.length := by
        simp [Nat.succ_sub_succ]
      rw [hlen]
      rfl

theorem takeWhile_two_nl (next : List Char)
    (hn : ∀ c, next.head? = some c → c ≠ '\n') :
    ('\n' :: '\n' :: next).takeWhile (· = '\n') = ['\n', '\n'] ∧
    ('\n' :: '\n' :: next).dropWhile (· = '\n') = next := by
  cases next with
  | nil => exact ⟨rfl, rfl⟩
  | cons d ds =>
    have hd : d ≠ '\n' := hn d rfl
    constructor
    · simp [List.takeWhile_cons, hd]
    · simp [List.dropWhile_cons, hd]

theorem collapseNLF_joinSep (L : List (List Char))
    (hne : ∀ l ∈ L, l ≠ []) (hnl : ∀ l ∈ L, ∀ c ∈ l, c ≠ '\n') :
    ∀ fuel, (joinSep ['\n', '\n'] L).length ≤ fuel →
      collapseNLF fuel (joinSep ['\n', '\n'] L) = joinSep ['\n', '\n'] L := by
  induction L with
  | nil =>
    intro fuel _
    show collapseNLF fuel [] = []
    cases fuel <;> rfl
  | cons a rest ih =>
    intro fuel hf
    cases rest with
    | nil =>
      show collapseNLF fuel a = a
      have ha : a ++ ([] : List Char) = a := List.append_nil a
      rw [← ha, collapseNLF_append a fuel []
        (by simpa [joinSep, ha] using hf) (hnl a (by simp))]
      have : collapseNLF (fuel - a.length) [] = [] := by
        cases fuel - a.length <;> rfl
      rw [this]
    | cons b r =>
      have hj : joinSep ['\n', '\n'] (a :: b :: r) =
          a ++ ('\n' :: '\n' :: joinSep ['\n', '\n'] (b :: r)) := rfl
      rw [hj] at hf ⊢
      rw [collapseNLF_append a fuel _
        (by simp only [List.length_append] at hf; omega) (hnl a (by simp))]
      have hblen : 2 + (joinSep ['\n', '\n'] (b :: r)).length ≤ fuel - a.length := by
        simp only [List.length_append, List.length_cons] at hf ⊢
        omega
      obtain ⟨f1, he1⟩ : ∃ f1, fuel - a.length = f1 + 1 :=
        ⟨fuel - a.length - 1, by omega⟩
      rw [he1, collapseNLF, if_pos rfl]
      have hhead : ∀ c, (joinSep ['\n', '\n'] (b :: r)).head? = some c → c ≠ '\n' := by
        intro c hch
        have hbne := hne b (by simp)
        have hbnl := hnl b (by simp)
        rw [joinSep_head? _ _ _ hbne] at hch
        cases b with
        | nil => exact absurd rfl hbne
        | cons x xs =>
          obtain rfl : x = c := by simpa using hch
          exact hbnl x (by simp)
      obtain ⟨ht, hd⟩ := takeWhile_two_nl _ hhead
      rw [ht, hd]
      rw [if_neg (by simp)]
      rw [ih (fun l hl => hne l (List.mem_cons_of_mem a hl))
        (fun l hl => hnl l (List.mem_cons_of_mem a hl)) f1 (by omega)]
      exact congrArg (a ++ ·) rfl

theorem joinSep_strip_ends (L : List (List Char))
    (hne : ∀ l ∈ L, l ≠ []) (hstrip : ∀ l ∈ L, pyStrip l = l) :
    pyStrip (joinSep ['\n', '\n'] L) = joinSep ['\n', '\n'] L := by
  cases L with
  | nil => rfl
  | cons a rest =>
    apply pyStrip_eq_self_of_ends
    · intro c hc
      rw [joinSep_head? _ _ _ (hne a (by simp))] at hc
      exact head_not_space_of_strip_fixed a (hstrip a (by simp)) c hc
    · intro c hc
      obtain ⟨l, hl, he⟩ := joinSep_getLast?_mem ['\n', '\n'] (a :: rest) (by simp) hne
      rw [he] at hc
      exact last_not_space_of_strip_fixed l (hstrip l hl) c hc

/-- C4 counterexample: the normalizer is not idempotent.  The URL-tagging
regex also matches the closing parenthesis of an already-tagged link, so
re-normalizing the canonical text of a body containing a URL re-wraps the
link marker and yields a different string. -/
theorem c4_counterexample :
    html_to_plain_text
        (html_to_plain_text "podivej se sem: http://x.com/a diky moc".data []) [] ≠
      html_to_plain_text "podivej se sem: http://x.com/a diky moc".data [] := by
  decide

/-- C4 amended: the normalizer is idempotent only on canonical texts in
its own URL-free normal form — a double-newline join of stripped lines of
printable ASCII (no markup metacharacters) that pass the useful-line
filter (length at least 10, no boilerplate token) — provided the text
contains no technical phrase and no URL scheme; such texts are fixed
points of every normalization stage.  The printable-ASCII restriction
confines the statement to the fragment on which the embedding's
splitlines, strip and IGNORECASE coincide exactly with Python's Unicode
behavior (no `\v`-style terminators, no Unicode whitespace, no non-ASCII
case folding).  Texts containing a tagged link are re-wrapped (see the
counterexample), so the claim's unconditional idempotence fails. -/
theorem c4_amended (L : List (List Char))
    (huse : ∀ ln ∈ L, usefulLine ln = true)
    (hstrip : ∀ ln ∈ L, pyStrip ln = ln)
    (hchar : ∀ ln ∈ L, ∀ c ∈ ln, 32 ≤ c.toNat ∧ c.toNat ≤ 126 ∧ c ≠ '<' ∧ c ≠ '&')
    (htech : ∀ p ∈ TECH_PATTERNS_MAIN,
      containsBy ciChar p (joinSep ['\n', '\n'] L) = false)
    (hurl : containsBy csChar "://".data (joinSep ['\n', '\n'] L) = false) :
    html_to_plain_text (joinSep ['\n', '\n'] L) [] = joinSep ['\n', '\n'] L := by
  have hchar' : ∀ ln ∈ L, ∀ c ∈ ln, c ≠ '\n' ∧ c ≠ '\r' ∧ c ≠ '<' ∧ c ≠ '&' := by
    intro ln hln c hc
    obtain ⟨h1, h2, h3, h4⟩ := hchar ln hln c hc
    refine ⟨?_, ?_, h3, h4⟩
    · intro he
      subst he
      exact absurd h1 (by decide)
    · intro he
      subst he
      exact absurd h1 (by decide)
  have hne : ∀ l ∈ L, l ≠ [] := by
    intro l hl h0
    subst h0
    have := huse [] hl
    simp [usefulLine] at this
  have hmem : ∀ c ∈ joinSep ['\n', '\n'] L, (∃ l ∈ L, c ∈ l) ∨ c = '\n' := by
    intro c hc
    rcases mem_joinSep _ _ _ hc with h | h
    · exact Or.inl h
    · exact Or.inr (by simpa using h)
  have hnoR : '\r' ∉ joinSep ['\n', '\n'] L := by
    intro hr
    rcases hmem '\r' hr with ⟨l, hl, hcl⟩ | h
    · exact (hchar' l hl '\r' hcl).2.1 rfl
    · exact absurd h (by decide)
  have hnoLt : ¬ (joinSep ['\n', '\n'] L).any (fun c => c = '<' || c = '&') = true := by
    intro ha
    obtain ⟨c, hc, hcc⟩ := List.any_eq_true.mp ha
    rcases hmem c hc with ⟨l, hl, hcl⟩ | hnl
    · have hcc' : c = '<' ∨ c = '&' := by simpa using hcc
      rcases hcc' with h | h
      · exact (hchar' l hl c hcl).2.2.1 h
      · exact (hchar' l hl c hcl).2.2.2 h
    · rw [hnl] at hcc
      simp at hcc
  rw [html_to_plain_text]
  rw [if_neg (by simp)]
  rw [getTextModel, if_neg hnoLt]
  rw [subAll_of_not_contains csChar ['\r', '\n'] ['\n'] _
    (containsBy_cs_eq_false_of_not_mem '\r' ['\n'] _ hnoR)]
  rw [urlSubMain_id _ hurl]
  have hstm : strip_technical_main (joinSep ['\n', '\n'] L) = joinSep ['\n', '\n'] L := by
    rw [strip_technical_main]
    rw [foldl_subAll_id ciChar TECH_PATTERNS_MAIN _ htech]
    rw [splitLinesPy_joinSep L hne
      (fun l hl c hc => ⟨(hchar' l hl c hc).1, (hchar' l hl c hc).2.1⟩)]
    rw [map_pyStrip_interleave L hstrip]
    rw [filter_useful_interleave L huse]
    exact joinSep_strip_ends L hne hstrip
  rw [hstm]
  rw [collapseNL,
    collapseNLF_joinSep L hne (fun l hl c hc => (hchar' l hl c hc).1) _ le_rfl]
  exact joinSep_strip_ends L hne hstrip

/-- Witness for `c4_amended` at a concrete one-line normal-form text. -/
theorem c4_amended_witness :
    html_to_plain_text (joinSep ['\n', '\n'] ["podivej se sem na tohle".data]) [] =
      joinSep ['\n', '\n'] ["podivej se sem na tohle".data] :=
  c4_amended ["podivej se sem na tohle".data]
    (by decide) (by decide) (by decide) (by decide) (by decide)

/-! ## Sanitizer non-introduction analysis (both forbidden substrings) -/

theorem startsWithBy_append_left (eqc : Char → Char → Bool) (p q l : List Char)
    (h : startsWithBy eqc (p ++ q) l = true) : startsWithBy eqc p l = true := by
  induction p generalizing l with
  | nil => rfl
  | cons a as ih =>
    cases l with
    | nil =>
      rw [List.cons_append] at h
      exact Bool.noConfusion h
    | cons c cs =>
      rw [List.cons_append, startsWithBy, Bool.and_eq_true] at h
      rw [startsWithBy, Bool.and_eq_true]
      exact ⟨h.1, ih cs h.2⟩

theorem containsBy_append_left (eqc : Char → Char → Bool) (p q l : List Char)
    (h : containsBy eqc (p ++ q) l = true) : containsBy eqc p l = true := by
  obtain ⟨i, hi⟩ := (containsBy_iff_exists_startsWith eqc (p ++ q) l).mp h
  exact (containsBy_iff_exists_startsWith eqc p l).mpr
    ⟨i, startsWithBy_append_left eqc p q _ hi⟩

theorem scriptBlockLen_eq_none (l : List Char)
    (h : ¬ startsWithBy ciChar "<script".data l = true) : scriptBlockLen l = none := by
  rw [scriptBlockLen, if_neg h]

theorem removeScriptBlocksF_id (fuel : Nat) (l : List Char)
    (h : ∀ i, scriptBlockLen (l.drop i) = none) : removeScriptBlocksF fuel l = l := by
  induction fuel generalizing l with
  | zero => cases l <;> rfl
  | succ f ih =>
    cases l with
    | nil => rfl
    | cons c cs =>
      rw [removeScriptBlocksF]
      have h0 : scriptBlockLen (c :: cs) = none := h 0
      rw [h0]
      exact congrArg (c :: ·) (ih cs (fun i => h (i + 1)))

theorem removeScriptBlocks_id_of_not_contains (l : List Char)
    (h : containsBy ciChar "<script".data l = false) : removeScriptBlocks l = l := by
  apply removeScriptBlocksF_id
  intro i
  apply scriptBlockLen_eq_none
  intro hq
  have := (containsBy_iff_exists_startsWith ciChar "<script".data l).mpr ⟨i, hq⟩
  rw [h] at this
  exact Bool.noConfusion this

/-- Each defence pass of `sanitize_html` is the identity unless its
trigger substring is present, so the two passes together never introduce
`javascript:` or `<script>` into cleaned text that lacked both `<script`
and `javascript:`. -/
theorem sanitizePasses_no_intro (t : List Char) :
    (containsBy ciChar "javascript:".data
        (subAll ciChar jsPat [] (removeScriptBlocks t)) = true →
      containsBy ciChar "javascript:".data t = true ∨
      containsBy ciChar "<script".data t = true) ∧
    (containsBy ciChar "<script>".data
        (subAll ciChar jsPat [] (removeScriptBlocks t)) = true →
      containsBy ciChar "<script".data t = true ∨
      containsBy ciChar "javascript:".data t = true) := by
  by_cases hs : containsBy ciChar "<script".data t = true
  · exact ⟨fun _ => Or.inr hs, fun _ => Or.inl hs⟩
  · have hb : removeScriptBlocks t = t :=
      removeScriptBlocks_id_of_not_contains t (Bool.eq_false_iff.mpr hs)
    by_cases hj : containsBy ciChar "javascript:".data t = true
    · exact ⟨fun _ => Or.inl hj, fun _ => Or.inr hj⟩
    · have hjs : subAll ciChar jsPat [] (removeScriptBlocks t) = t := by
        rw [hb]
        exact subAll_of_not_contains ciChar jsPat [] t (Bool.eq_false_iff.mpr hj)
      constructor
      · intro h
        rw [hjs] at h
        exact Or.inl h
      · intro h
        rw [hjs] at h
        have hsplit : "<script>".data = "<script".data ++ ['>'] := by decide
        rw [hsplit] at h
        exact Or.inl (containsBy_append_left ciChar "<script".data ['>'] t h)

/-- C1 amended: the two defence passes of `sanitize_html` never introduce
a forbidden substring into whitelist-cleaned text that lacked both
triggers — an occurrence of `javascript:` (case-insensitive) in the
sanitized output implies the cleaned intermediate contained `javascript:`
or `<script`, and an occurrence of `<script>` implies it contained
`<script` or `javascript:` — but absence from the output is guaranteed
for neither substring: one-pass removal splices a new `javascript:`
occurrence out of `javajavascript:script:` (see the counterexample), and
an unclosed `<script>` — which the external cleaner can emit, e.g. inside
an allowed attribute value, where the serializer does not escape `<` —
passes both defence passes verbatim, the block regex requiring a closing
`</script>`; `<script>`-absence therefore reduces entirely to a property
of the external cleaner's output that the repository's code does not
constrain. -/
theorem c1_amended :
    (∀ l, containsBy ciChar "javascript:".data (sanitize_html l) = true →
      containsBy ciChar "javascript:".data (bleachClean l) = true ∨
      containsBy ciChar "<script".data (bleachClean l) = true) ∧
    (∀ l, containsBy ciChar "<script>".data (sanitize_html l) = true →
      containsBy ciChar "<script".data (bleachClean l) = true ∨
      containsBy ciChar "javascript:".data (bleachClean l) = true) ∧
    containsBy ciChar "<script>".data
      (subAll ciChar jsPat []
        (removeScriptBlocks "<a title=\"<script>\">x</a>".data)) = true := by
  refine ⟨fun l h => (sanitizePasses_no_intro (bleachClean l)).1 h,
    fun l h => (sanitizePasses_no_intro (bleachClean l)).2 h, ?_⟩
  decide

/-- Witness for `c1_amended`: both hypotheses-bearing conjuncts
discharged at the concrete spliced input. -/
theorem c1_amended_witness :
    containsBy ciChar "javascript:".data (bleachClean "javajavascript:script:".data) = true ∨
    containsBy ciChar "<script".data (bleachClean "javajavascript:script:".data) = true :=
  c1_amended.1 "javajavascript:script:".data (by decide)
